import Mathlib

/-!
Verification of the check_ntp_time plugin core (monitoring-plugins).

Shallow embedding conventions:
* C `double` values are modelled as exact rationals (`ℚ`); decimal literals of
  the source (e.g. `42.94967296`) are taken at their exact decimal value.
* The 32-bit and 64-bit NTP fixed-point wire values are modelled as `Nat` in
  their big-endian numeric reading (the value after `ntohl`/`ntohs` of the two
  halves is `hi` resp. `lo`), with explicit `% 2^w` where C unsigned wrap-around
  matters.
* `time_t` values are modelled as `Int`.
* The fixed per-peer array `double offset[AVG_NUM]` is modelled as the list of
  its written prefix (writes happen only at index `num_responses`, see the
  claims about the loop invariants).
-/

namespace CheckNtpTime

/-- number of times to perform each request to get a good average (`AVG_NUM`). -/
def AVG_NUM : Nat := 4

/-- ntp wants seconds since 1/1/00, epoch is 1/1/70; this is the difference. -/
def EPOCHDIFF : Nat := 0x83aa7e80

/-- high 32 bits of a 64-bit wire value (`ntohl(L32(n))`). -/
def hi32 (n : Nat) : Nat := n / 2 ^ 32 % 2 ^ 32

/-- low 32 bits of a 64-bit wire value (`ntohl(R32(n))`). -/
def lo32 (n : Nat) : Nat := n % 2 ^ 32

/-- high 16 bits of a 32-bit wire value (`ntohs(L16(x))`). -/
def hi16 (x : Nat) : Nat := x / 2 ^ 16 % 2 ^ 16

/-- low 16 bits of a 32-bit wire value (`ntohs(R16(x))`). -/
def lo16 (x : Nat) : Nat := x % 2 ^ 16

/-- subtraction of `uint32_t - unsigned long` carried out in 64-bit unsigned
arithmetic, as in `ntohl(L32(n)) - EPOCHDIFF` (EPOCHDIFF has type
`unsigned long`). -/
def sub64 (a b : Nat) : Nat := (a + 2 ^ 64 - b) % 2 ^ 64

/-- NTP32asDOUBLE: extract a 32-bit ntp fixed point number into a double:
`ntohs(L16(x)) + ((double)ntohs(R16(x)) / 65536.0)`. -/
def NTP32asDOUBLE (x : Nat) : ℚ := (hi16 x : ℚ) + (lo16 x : ℚ) / 65536

/-- NTP64asDOUBLE: extract a 64-bit ntp fixed point number into a double:
`n ? (ntohl(L32(n)) - EPOCHDIFF) + (.00000001 * (0.5 + (double)(ntohl(R32(n)) / 42.94967296))) : 0`. -/
def NTP64asDOUBLE (n : Nat) : ℚ :=
  if n = 0 then 0
  else (sub64 (hi32 n) EPOCHDIFF : ℚ)
    + (1 / 100000000 : ℚ) * (1 / 2 + (lo32 n : ℚ) / (4294967296 / 100000000 : ℚ))

/-- struct timeval, with `time_t`/`suseconds_t` modelled as `Int`. -/
structure timeval where
  tv_sec : Int
  tv_usec : Int
deriving DecidableEq

/-- TVtoNTP64: convert a struct timeval to an ntp 64-bit fp number (the raw
64-bit wire value, big-endian reading).  `L32(n) = htonl(t.tv_sec + EPOCHDIFF)`
wraps modulo `2^32`; `R32(n) = htonl((uint64_t)((4294.967296 * t.tv_usec) + .5))`
truncates the double to an integer and is then taken modulo `2^32`. -/
def TVtoNTP64 (t : timeval) : Nat :=
  if t.tv_usec = 0 ∧ t.tv_sec = 0 then 0
  else ((t.tv_sec + (EPOCHDIFF : Int)) % 2 ^ 32).toNat * 2 ^ 32
    + (⌊(4294967296 / 1000000 : ℚ) * (t.tv_usec : ℚ) + 1 / 2⌋).toNat % 2 ^ 32

/-- ntp_message: everything in an ntp request/response as per rfc1305.
Multi-byte fields hold the raw big-endian wire value. -/
structure ntp_message where
  flags : Nat
  stratum : Nat
  poll : Int
  precision : Int
  rtdelay : Nat
  rtdisp : Nat
  refid : Nat
  refts : Nat
  origts : Nat
  rxts : Nat
  txts : Nat
deriving DecidableEq

/-- LI: bits 1,2 of the flags byte are the leap indicator
(`(x & LI_MASK) >> 6` with `LI_MASK = 0xc0`). -/
def LI (x : Nat) : Nat := (x &&& 0xc0) >>> 6

/-- LI_ALARM leap-indicator value. -/
def LI_ALARM : Nat := 0x03

/-- calc_offset: calculate the offset of the local clock, from the decoded
response timestamps and the local receive time (`TVasDOUBLE` of the
`gettimeofday` result is modelled directly as a rational number of seconds). -/
def calc_offset (message : ntp_message) (time_value : ℚ) : ℚ :=
  let client_tx := NTP64asDOUBLE message.origts
  let peer_rx := NTP64asDOUBLE message.rxts
  let peer_tx := NTP64asDOUBLE message.txts
  let client_rx := time_value
  ((peer_tx - client_rx) + (peer_rx - client_tx)) / 2

/-- Modelled from the spec (§4.1): decode64 of a non-sentinel raw value is the
epoch-adjusted whole seconds plus the binary fraction
`0.5e-8 + low32(raw)/2^32`. -/
def decode64_spec (n : Nat) : ℚ :=
  (sub64 (hi32 n) EPOCHDIFF : ℚ) + 1 / 200000000 + (lo32 n : ℚ) / 4294967296

/-- ntp_server_results: data about results from querying offset from a peer.
The C array `double offset[AVG_NUM]` (zero-initialised, written only at index
`num_responses` just before that counter is incremented) is modelled as the
list of its written prefix. -/
structure ntp_server_results where
  waiting : Int
  num_responses : Nat
  stratum : Nat
  rtdelay : ℚ
  rtdisp : ℚ
  offset : List ℚ
  flags : Nat
deriving DecidableEq

/-- zeroed peer record, as produced by the `memset(servers, 0, ...)`. -/
def initServer : ntp_server_results := ⟨0, 0, 0, 0, 0, [], 0⟩

/-- loop of `best_offset_server`: `cserver` is the index of the head of the
remaining list; the running best is carried as index together with the record
found there (the C code re-reads `slist[best_server]` from the unchanged
array, which is the same record). -/
def bestAux : List ntp_server_results → Nat → Option (Nat × ntp_server_results) →
    Option (Nat × ntp_server_results)
  | [], _, best => best
  | s :: rest, cserver, best =>
    if s.stratum = 0 then bestAux rest (cserver + 1) best
    else if LI s.flags = LI_ALARM then bestAux rest (cserver + 1) best
    else
      match best with
      | none => bestAux rest (cserver + 1) (some (cserver, s))
      | some (bi, bs) =>
        if s.stratum ≤ bs.stratum then
          if s.rtdisp ≤ bs.rtdisp then
            if s.rtdelay < bs.rtdelay then bestAux rest (cserver + 1) (some (cserver, s))
            else bestAux rest (cserver + 1) (some (bi, bs))
          else bestAux rest (cserver + 1) (some (bi, bs))
        else bestAux rest (cserver + 1) (some (bi, bs))

/-- best_offset_server: select the "best" server from a list of servers, and
return its index, or -1 when no peer qualifies. -/
def best_offset_server (slist : List ntp_server_results) : Int :=
  match bestAux slist 0 none with
  | some (i, _) => (i : Int)
  | none => -1

/-- Modelled from the spec (§4.5): a peer is rejected when its stratum is 0 or
its leap indicator is ALARM. -/
def rejectedSpec (s : ntp_server_results) : Prop := s.stratum = 0 ∨ LI s.flags = LI_ALARM

instance (s : ntp_server_results) : Decidable (rejectedSpec s) := by
  unfold rejectedSpec; infer_instance

/-- Modelled from the spec (§4.5): one step of the left-to-right pass carrying
the running best; a non-rejected peer replaces the best exactly when its
stratum and dispersion are no worse and its delay is strictly better. -/
def selectStepSpec (best : Option (Nat × ntp_server_results)) (p : Nat × ntp_server_results) :
    Option (Nat × ntp_server_results) :=
  if rejectedSpec p.2 then best
  else
    match best with
    | none => some p
    | some (bi, bs) =>
      if p.2.stratum ≤ bs.stratum ∧ p.2.rtdisp ≤ bs.rtdisp ∧ p.2.rtdelay < bs.rtdelay then some p
      else some (bi, bs)

/-- Modelled from the spec (§4.5): select_best as a deterministic left-to-right
fold over the indexed peer list. -/
def select_best_spec (slist : List ntp_server_results) : Option Nat :=
  (slist.enum.foldl selectStepSpec none).map Prod.fst

/-- environment of one iteration of the sampling loop: the value read from
`time(NULL)` at the top of the body, whether `poll` failed (returned -1), the
number of readable sockets `poll` reported, which sockets have `POLLIN` set,
and, per peer index, the datagram that a `read` would deliver and the
`gettimeofday` receive time (as rational seconds). -/
structure IterEnv where
  tnow : Int
  pollFail : Bool
  nready : Nat
  readable : Nat → Bool
  msg : Nat → ntp_message
  recv : Nat → ℚ

/-- mutable state of the sampling loop in `offset_request`. -/
structure LoopState where
  servers : List ntp_server_results
  completed : Nat
  oneRead : Bool
  now : Int
  start : Int
deriving DecidableEq

/-- receive-step update of one peer record (lines of `offset_request` handling
a readable socket): the sample is appended at index `num_responses` (the
pre-increment count), the counter incremented, stratum/dispersion/delay/flags
copied from the decoded message and the waiting marker cleared. -/
def recordSample (time_offset : Int) (s : ntp_server_results) (m : ntp_message)
    (recv_time : ℚ) : ntp_server_results :=
  { waiting := 0
    num_responses := s.num_responses + 1
    stratum := m.stratum
    rtdelay := NTP32asDOUBLE m.rtdelay
    rtdisp := NTP32asDOUBLE m.rtdisp
    offset := s.offset ++ [calc_offset m recv_time + (time_offset : ℚ)]
    flags := m.flags }

/-- send scan of the sampling loop: walk the peers in index order and send a
request to the first peer that is below the sample target and whose waiting
timestamp precedes the current second, setting its waiting marker to now;
the `break` makes at most one send per iteration. -/
def sendScan (now_time : Int) : Nat → List ntp_server_results →
    List ntp_server_results × Option Nat
  | _, [] => ([], none)
  | i, s :: rest =>
    if s.waiting < now_time ∧ s.num_responses < AVG_NUM then
      ({ s with waiting := now_time } :: rest, some i)
    else
      let r := sendScan now_time (i + 1) rest
      (s :: r.1, r.2)

/-- read scan of the sampling loop: walk the peers in index order while
`servers_readable` (the counter `k`) is non-zero; a peer with `POLLIN` set and
a response count below the target gets one datagram recorded (decrementing the
counter); returns the updated peers, the number of peers that newly reached
the sample target (added to `servers_completed`), and whether any read
happened (`one_read`). -/
def readScan (time_offset : Int) (e : IterEnv) : Nat → Nat → List ntp_server_results →
    List ntp_server_results × Nat × Bool
  | _, _, [] => ([], 0, false)
  | k, i, s :: rest =>
    if k = 0 then (s :: rest, 0, false)
    else if e.readable i ∧ s.num_responses < AVG_NUM then
      let s' := recordSample time_offset s (e.msg i) (e.recv i)
      let r := readScan time_offset e (k - 1) (i + 1) rest
      (s' :: r.1, (if s'.num_responses = AVG_NUM then 1 else 0) + r.2.1, true)
    else
      let r := readScan time_offset e k (i + 1) rest
      (s :: r.1, r.2.1, r.2.2)

/-- state after the top of the loop body: `now_time = time(NULL)` and the send
scan, i.e. everything that happens before `poll` is consulted. -/
def afterSend (e : IterEnv) (s : LoopState) : LoopState :=
  { s with now := e.tnow, servers := (sendScan e.tnow 0 s.servers).1 }

/-- one full iteration of the sampling loop body. -/
def loopBody (time_offset : Int) (e : IterEnv) (s : LoopState) : LoopState :=
  let s1 := afterSend e s
  let r := readScan time_offset e e.nready 0 s1.servers
  { s1 with
    servers := r.1
    completed := s1.completed + r.2.1
    oneRead := s1.oneRead || r.2.2 }

/-- continuation condition of the sampling loop:
`servers_completed < num_hosts && now_time - start_ts <= socket_timeout / 2`. -/
def loopGuard (num_hosts socket_timeout : Nat) (s : LoopState) : Bool :=
  decide (s.completed < num_hosts) && decide (s.now - s.start ≤ ((socket_timeout / 2 : Nat) : Int))

/-- outcome of running the sampling loop on a finite trace of iteration
environments: the loop either exits (guard false), dies on a `poll` failure,
or the trace is exhausted with the guard still true. -/
inductive LoopOutcome where
  | finished (s : LoopState)
  | aborted (s : LoopState)
  | outOfTrace
deriving DecidableEq

/-- sampling loop of `offset_request`, driven by a trace of per-iteration
environments. -/
def runLoop (num_hosts socket_timeout : Nat) (time_offset : Int) :
    List IterEnv → LoopState → LoopOutcome
  | [], s => if loopGuard num_hosts socket_timeout s then .outOfTrace else .finished s
  | e :: rest, s =>
    if loopGuard num_hosts socket_timeout s then
      (if e.pollFail then .aborted (afterSend e s)
       else runLoop num_hosts socket_timeout time_offset rest (loopBody time_offset e s))
    else .finished s

/-- initial state of a sampling session: one zeroed record per resolved host,
`now_time = start_ts = time(NULL)`. -/
def initState (num_hosts : Nat) (start_ts : Int) : LoopState :=
  { servers := List.replicate num_hosts initServer
    completed := 0
    oneRead := false
    now := start_ts
    start := start_ts }

/-- monitoring-plugins state values. -/
inductive MpState where
  | ok
  | warning
  | critical
  | unknown
deriving DecidableEq

/-- outcome of `offset_request` after the sampling loop: either the process
dies (the `die` call with its exit state), or the function returns an average
offset together with the status left in `*status`. -/
inductive SessionOutcome where
  | died (st : MpState)
  | result (status : MpState) (avg : ℚ)
deriving DecidableEq

/-- final averaging step of `offset_request`: sum the first `num_responses`
recorded offsets and divide by `num_responses`. -/
def avgOffset (p : ntp_server_results) : ℚ :=
  ((p.offset.take p.num_responses).foldl (· + ·) 0) / (p.num_responses : ℚ)

/-- post-loop part of `offset_request`: die CRITICAL when not a single
datagram was read; otherwise select the best peer, setting the caller's status
to UNKNOWN (with the average left at 0) when none qualifies, else average the
selected peer's samples leaving the status untouched. -/
def finishSession (status0 : MpState) (s : LoopState) : SessionOutcome :=
  if s.oneRead = false then .died .critical
  else
    let best_index := best_offset_server s.servers
    if best_index < 0 then .result .unknown 0
    else .result status0 (avgOffset (s.servers.getD best_index.toNat initServer))

/-- receive path of `offset_request` for one readable peer, made explicit in
the number of bytes of the arrived datagram: the source discards the value
returned by `read(2)` and never inspects the datagram size, so the resulting
update does not depend on `dgram_len` at all. -/
def readDatagram (dgram_len : Nat) (time_offset : Int) (s : ntp_server_results)
    (m : ntp_message) (recv_time : ℚ) : ntp_server_results :=
  recordSample time_offset s m recv_time

/-- Modelled from the spec (§4.3/§4.4): one offset sample as the spec states
it, the four-timestamp estimator plus the caller-supplied correction applied
once at capture. -/
def sampleSpec (m : ntp_message) (client_rx : ℚ) (time_offset : Int) : ℚ :=
  ((NTP64asDOUBLE m.txts - client_rx) + (NTP64asDOUBLE m.rxts - NTP64asDOUBLE m.origts)) / 2
    + (time_offset : ℚ)

/-- Modelled from the spec (§4.6): the aggregate is the arithmetic mean of the
recorded samples. -/
def meanSpec (l : List ℚ) : ℚ := l.sum / (l.length : ℚ)

/-- all-zero ntp message. -/
def msg0 : ntp_message := ⟨0, 0, 0, 0, 0, 0, 0, 0, 0, 0, 0⟩

/-- zero message with a valid stratum. -/
def msgGood : ntp_message := { msg0 with stratum := 2 }

/-- iteration environment: clock reads 10, nothing readable. -/
def env0 : IterEnv := ⟨10, false, 0, fun _ => false, fun _ => msg0, fun _ => 0⟩

/-- iteration environment: clock reads 5, one readable socket delivering
`msgGood` at receive time 0. -/
def env1 : IterEnv := ⟨5, false, 1, fun _ => true, fun _ => msgGood, fun _ => 0⟩

/-- loop state after running one iteration of `env0` from a one-host session:
a request was sent but no datagram ever arrived. -/
def noReadFinal : LoopState := ⟨[⟨10, 0, 0, 0, 0, [], 0⟩], 0, false, 10, 0⟩

/-- loop state after running one iteration of `env1` from a one-host session:
one sample was recorded from a stratum-2 peer. -/
def oneReadFinal : LoopState :=
  ⟨[recordSample 0 ⟨5, 0, 0, 0, 0, [], 0⟩ msgGood 0], 0, true, 5, 0⟩

/-- per-peer invariant of the sampling loop: the response count never exceeds
the sample target, the written prefix of the offset array has exactly
`num_responses` entries, and a non-zero stratum implies at least one recorded
response. -/
def countsOk (s : LoopState) : Prop :=
  ∀ p ∈ s.servers, p.num_responses ≤ AVG_NUM ∧ p.offset.length = p.num_responses ∧
    (p.stratum ≠ 0 → 0 < p.num_responses)

/-- bookkeeping invariant: the peer list keeps its size and
`servers_completed` counts the peers that reached the sample target. -/
def completedOk (num_hosts : Nat) (s : LoopState) : Prop :=
  s.servers.length = num_hosts ∧
    s.completed = s.servers.countP (fun p => decide (p.num_responses = AVG_NUM))

/-- one_read invariant: the flag is set exactly when some peer has recorded a
response. -/
def oneReadOk (s : LoopState) : Prop :=
  s.oneRead = true ↔ ∃ p ∈ s.servers, 0 < p.num_responses

/-- combined invariant of the sampling loop. -/
def LoopInv (num_hosts : Nat) (s : LoopState) : Prop :=
  completedOk num_hosts s ∧ countsOk s ∧ oneReadOk s

theorem foldl_add_eq_sum (l : List ℚ) : ∀ a : ℚ, l.foldl (· + ·) a = a + l.sum := by
  induction l with
  | nil => intro a; simp
  | cons x xs ih => intro a; simp [ih, add_assoc]

/-- C4 counterexample: the constant the codec uses is 0x83AA7E80, whose value
is 2,208,988,800, not the claimed 2,085,978,496 (which is the era-wrap
complement 2^32 - 2208988800). -/
theorem epochdiff_value_counterexample :
    EPOCHDIFF = 0x83aa7e80 ∧ (0x83aa7e80 : Nat) = 2208988800 ∧
      EPOCHDIFF ≠ 2085978496 :=
  ⟨rfl, rfl, by decide⟩

/-- C4 amended: the NTP–Unix epoch difference that the 64-bit decode subtracts
and the 64-bit encode adds is 2,208,988,800 seconds, which is the value of the
constant 0x83AA7E80. -/
theorem epochdiff_value :
    EPOCHDIFF = 2208988800 ∧
    (0x83aa7e80 : Nat) = 2208988800 ∧
    (∀ n : Nat, n ≠ 0 →
      NTP64asDOUBLE n = (sub64 (hi32 n) 2208988800 : ℚ)
        + (1 / 100000000 : ℚ) * (1 / 2 + (lo32 n : ℚ) / (4294967296 / 100000000 : ℚ))) ∧
    (∀ t : timeval, ¬(t.tv_usec = 0 ∧ t.tv_sec = 0) →
      hi32 (TVtoNTP64 t) = ((t.tv_sec + 2208988800) % 2 ^ 32).toNat) := by
  refine ⟨rfl, rfl, ?_, ?_⟩
  · intro n hn
    rw [NTP64asDOUBLE, if_neg hn]
    rfl
  · intro t ht
    rw [TVtoNTP64, if_neg ht]
    have hE : (EPOCHDIFF : Int) = 2208988800 := rfl
    rw [hE, hi32]
    set b := (⌊(4294967296 / 1000000 : ℚ) * (t.tv_usec : ℚ) + 1 / 2⌋).toNat % 2 ^ 32 with hb
    have hblt : b < 2 ^ 32 := Nat.mod_lt _ (by norm_num)
    have halt : ((t.tv_sec + 2208988800) % 2 ^ 32).toNat < 2 ^ 32 := by
      have h1 : 0 ≤ (t.tv_sec + 2208988800) % 2 ^ 32 :=
        Int.emod_nonneg _ (by norm_num)
      have h2 : (t.tv_sec + 2208988800) % 2 ^ 32 < 2 ^ 32 :=
        Int.emod_lt_of_pos _ (by norm_num)
      omega
    omega

/-- C4 witness: the theorem instantiated at raw value 1 and at one second past
the Unix epoch. -/
theorem epochdiff_value_witness :
    ((1 : Nat) ≠ 0 ∧
      NTP64asDOUBLE 1 = (sub64 (hi32 1) 2208988800 : ℚ)
        + (1 / 100000000 : ℚ) * (1 / 2 + (lo32 1 : ℚ) / (4294967296 / 100000000 : ℚ))) ∧
    (¬((timeval.mk 1 0).tv_usec = 0 ∧ (timeval.mk 1 0).tv_sec = 0) ∧
      hi32 (TVtoNTP64 (timeval.mk 1 0)) = (((timeval.mk 1 0).tv_sec + 2208988800) % 2 ^ 32).toNat) :=
  ⟨⟨by decide, epochdiff_value.2.2.1 1 (by decide)⟩,
   ⟨by decide, epochdiff_value.2.2.2 ⟨1, 0⟩ (by decide)⟩⟩

/-- C5: raw value 0 is the unset sentinel in both directions: it decodes to
0.0 seconds rather than the epoch interpretation, a zero timeval encodes to
raw 0, and every non-zero raw value decodes by the epoch-adjusted whole
seconds plus binary fraction formula. -/
theorem sentinel_zero_codec :
    NTP64asDOUBLE 0 = 0 ∧
    TVtoNTP64 ⟨0, 0⟩ = 0 ∧
    (∀ n : Nat, n ≠ 0 → NTP64asDOUBLE n = decode64_spec n) := by
  refine ⟨by rw [NTP64asDOUBLE]; simp, by rw [TVtoNTP64]; simp, ?_⟩
  intro n hn
  rw [NTP64asDOUBLE, if_neg hn, decode64_spec]
  ring

/-- C5 witness: the decode formula agrees at the raw value 2^32 (one second
past the NTP epoch). -/
theorem sentinel_zero_codec_witness :
    (4294967296 : Nat) ≠ 0 ∧ NTP64asDOUBLE 4294967296 = decode64_spec 4294967296 :=
  ⟨by decide, sentinel_zero_codec.2.2 4294967296 (by decide)⟩

/-- C6: the receive path of offset_request does not inspect the size of the
arrived datagram (the return value of read is discarded): even a 1-byte
datagram records a full sample and increments the response count, where the
specified behaviour is to fail with MalformedPacket below 48 bytes and leave
the peer record unchanged. -/
theorem short_datagram_still_recorded :
    (∀ dgram_len time_offset s m recv_time,
      readDatagram dgram_len time_offset s m recv_time
        = recordSample time_offset s m recv_time) ∧
    (readDatagram 1 0 initServer msg0 0).num_responses = 1 ∧
    (readDatagram 1 0 initServer msg0 0).stratum = msg0.stratum ∧
    (readDatagram 1 0 initServer msg0 0).offset ≠ initServer.offset :=
  ⟨fun _ _ _ _ _ => rfl, rfl, rfl, by decide⟩

/-- C2: each recorded offset sample is the four-timestamp estimator of the
decoded response plus the caller-supplied correction applied once at capture,
and the final reported offset for the selected peer is the plain arithmetic
mean of those samples with no further correction. -/
theorem offset_aggregation_mean :
    (∀ time_offset s m recv_time,
      (recordSample time_offset s m recv_time).offset
        = s.offset ++ [sampleSpec m recv_time time_offset]) ∧
    (∀ p : ntp_server_results, p.offset.length = p.num_responses →
      avgOffset p = meanSpec p.offset) ∧
    (∀ status0 s, s.oneRead = true → 0 ≤ best_offset_server s.servers →
      finishSession status0 s
        = .result status0 (avgOffset (s.servers.getD (best_offset_server s.servers).toNat initServer))) := by
  refine ⟨?_, ?_, ?_⟩
  · intro time_offset s m recv_time
    rw [recordSample, sampleSpec, calc_offset]
  · intro p hp
    rw [avgOffset, meanSpec, ← hp, List.take_length, foldl_add_eq_sum, zero_add]
  · intro status0 s h1 h2
    rw [finishSession, if_neg (by simp [h1]), if_neg (by omega)]

/-- C2 witness: the mean step applied to a peer holding one recorded sample. -/
theorem offset_aggregation_mean_witness :
    ((⟨0, 1, 2, 0, 0, [5], 0⟩ : ntp_server_results).offset.length
        = (⟨0, 1, 2, 0, 0, [5], 0⟩ : ntp_server_results).num_responses) ∧
    avgOffset ⟨0, 1, 2, 0, 0, [5], 0⟩ = meanSpec (⟨0, 1, 2, 0, 0, [5], 0⟩ : ntp_server_results).offset :=
  ⟨by decide, offset_aggregation_mean.2.1 ⟨0, 1, 2, 0, 0, [5], 0⟩ (by decide)⟩

theorem bestAux_cons_step (s : ntp_server_results) (rest : List ntp_server_results)
    (i : Nat) (acc : Option (Nat × ntp_server_results)) :
    bestAux (s :: rest) i acc = bestAux rest (i + 1) (selectStepSpec acc (i, s)) := by
  rcases acc with _ | ⟨bi, bs⟩
  · simp only [bestAux, selectStepSpec, rejectedSpec]
    split_ifs <;> simp_all
  · simp only [bestAux, selectStepSpec, rejectedSpec]
    split_ifs <;> simp_all

theorem bestAux_eq_foldl (l : List ntp_server_results) : ∀ (i : Nat) (acc),
    bestAux l i acc = (List.enumFrom i l).foldl selectStepSpec acc := by
  induction l with
  | nil => intro i acc; rfl
  | cons s rest ih =>
    intro i acc
    rw [bestAux_cons_step, ih]
    rfl

theorem selectStep_ne_none (x : Nat × ntp_server_results) (p : Nat × ntp_server_results) :
    selectStepSpec (some x) p ≠ none := by
  rcases x with ⟨bi, bs⟩
  simp only [selectStepSpec]
  split_ifs <;> simp

theorem foldl_selectStep_some (l : List (Nat × ntp_server_results)) :
    ∀ x, l.foldl selectStepSpec (some x) ≠ none := by
  induction l with
  | nil => simp
  | cons p t ih =>
    intro x
    rw [List.foldl_cons]
    rcases h : selectStepSpec (some x) p with _ | y
    · exact absurd h (selectStep_ne_none x p)
    · exact ih y

theorem foldl_selectStep_none_iff (l : List (Nat × ntp_server_results)) :
    (l.foldl selectStepSpec none = none) ↔ ∀ p ∈ l, rejectedSpec p.2 := by
  induction l with
  | nil => simp
  | cons p t ih =>
    rw [List.foldl_cons]
    by_cases hp : rejectedSpec p.2
    · rw [show selectStepSpec none p = none from by simp [selectStepSpec, hp]]
      simp [hp, ih]
    · rw [show selectStepSpec none p = some p from by simp [selectStepSpec, hp]]
      refine iff_of_false (foldl_selectStep_some t p) ?_
      intro hall
      exact hp (hall p (List.mem_cons_self p t))

theorem foldl_selectStep_origin (l : List (Nat × ntp_server_results)) :
    ∀ acc x, l.foldl selectStepSpec acc = some x →
      acc = some x ∨ (x ∈ l ∧ ¬ rejectedSpec x.2) := by
  induction l with
  | nil => intro acc x h; exact Or.inl h
  | cons p t ih =>
    intro acc x h
    rw [List.foldl_cons] at h
    rcases ih (selectStepSpec acc p) x h with h1 | h2
    · by_cases hp : rejectedSpec p.2
      · rw [show selectStepSpec acc p = acc from by
          rcases acc with _ | ⟨bi, bs⟩ <;> simp [selectStepSpec, hp]] at h1
        exact Or.inl h1
      · rcases acc with _ | ⟨bi, bs⟩
        · rw [show selectStepSpec none p = some p from by simp [selectStepSpec, hp]] at h1
          refine Or.inr ⟨?_, ?_⟩
          · rw [← Option.some_inj.mp h1]; exact List.mem_cons_self p t
          · rw [← Option.some_inj.mp h1]; exact hp
        · by_cases hc : p.2.stratum ≤ bs.stratum ∧ p.2.rtdisp ≤ bs.rtdisp ∧ p.2.rtdelay < bs.rtdelay
          · rw [show selectStepSpec (some (bi, bs)) p = some p from by
              simp [selectStepSpec, hp, hc]] at h1
            refine Or.inr ⟨?_, ?_⟩
            · rw [← Option.some_inj.mp h1]; exact List.mem_cons_self p t
            · rw [← Option.some_inj.mp h1]; exact hp
          · rw [show selectStepSpec (some (bi, bs)) p = some (bi, bs) from by
              simp [selectStepSpec, hp, hc]] at h1
            exact Or.inl h1
    · exact Or.inr ⟨List.mem_cons_of_mem p h2.1, h2.2⟩

/-- C1: best_offset_server is the deterministic left-to-right pass of the
spec: peers with stratum 0 or leap ALARM are skipped, the first non-rejected
peer becomes the initial best, a later non-rejected peer replaces the best
exactly when its stratum and dispersion are no worse and its delay is
strictly smaller, and the result is -1 exactly when the list is empty or
every peer was rejected. -/
theorem best_offset_server_spec :
    (∀ slist, best_offset_server slist
        = (select_best_spec slist).elim (-1) (fun i => (i : Int))) ∧
    (∀ slist, best_offset_server slist = -1
        ↔ ∀ s ∈ slist, s.stratum = 0 ∨ LI s.flags = LI_ALARM) ∧
    (∀ s rest i acc, (s.stratum = 0 ∨ LI s.flags = LI_ALARM) →
        bestAux (s :: rest) i acc = bestAux rest (i + 1) acc) ∧
    (∀ s rest i, ¬(s.stratum = 0 ∨ LI s.flags = LI_ALARM) →
        bestAux (s :: rest) i none = bestAux rest (i + 1) (some (i, s))) ∧
    (∀ s rest i bi bs, ¬(s.stratum = 0 ∨ LI s.flags = LI_ALARM) →
        bestAux (s :: rest) i (some (bi, bs))
          = bestAux rest (i + 1)
              (if s.stratum ≤ bs.stratum ∧ s.rtdisp ≤ bs.rtdisp ∧ s.rtdelay < bs.rtdelay
               then some (i, s) else some (bi, bs))) := by
  refine ⟨?_, ?_, ?_, ?_, ?_⟩
  · intro slist
    rw [best_offset_server, select_best_spec, List.enum, bestAux_eq_foldl]
    rcases h : (List.enumFrom 0 slist).foldl selectStepSpec none with _ | ⟨j, srec⟩ <;>
      simp [h]
  · intro slist
    rw [best_offset_server, bestAux_eq_foldl]
    rcases h : (List.enumFrom 0 slist).foldl selectStepSpec none with _ | ⟨j, srec⟩
    · simp only [h]
      rw [← List.enum] at h
      rw [foldl_selectStep_none_iff] at h
      simp only [true_iff]
      intro s hs
      have : (s ∈ slist.enum.map Prod.snd) := by
        rw [List.enum_map_snd]; exact hs
      rcases List.mem_map.mp this with ⟨p, hp, hps⟩
      rcases h p hp with h0 | h0
      · exact Or.inl (hps ▸ h0)
      · exact Or.inr (hps ▸ h0)
    · simp only [h]
      refine iff_of_false (by omega) ?_
      intro hall
      rcases foldl_selectStep_origin _ none (j, srec) h with h0 | h0
      · exact Option.noConfusion h0
      · have hmem : srec ∈ slist := by
          have : ((j, srec).2 ∈ slist.enum.map Prod.snd) :=
            List.mem_map_of_mem Prod.snd h0.1
          rw [List.enum_map_snd] at this
          exact this
        exact h0.2 (Or.imp id id (hall srec hmem))
  · intro s rest i acc h
    rw [bestAux_cons_step]
    have : selectStepSpec acc (i, s) = acc := by
      rcases acc with _ | ⟨bi, bs⟩ <;> simp [selectStepSpec, rejectedSpec, h]
    rw [this]
  · intro s rest i h
    rw [bestAux_cons_step]
    have : selectStepSpec none (i, s) = some (i, s) := by
      simp [selectStepSpec, rejectedSpec, h]
    rw [this]
  · intro s rest i bi bs h
    rw [bestAux_cons_step]
    have : selectStepSpec (some (bi, bs)) (i, s)
        = (if s.stratum ≤ bs.stratum ∧ s.rtdisp ≤ bs.rtdisp ∧ s.rtdelay < bs.rtdelay
           then some (i, s) else some (bi, bs)) := by
      simp [selectStepSpec, rejectedSpec, h]
    rw [this]

/-- C1 witness: the skip, initial-best and replacement clauses instantiated on
concrete peers: a stratum-0 peer is skipped, a stratum-2 peer becomes the
initial best, and a peer with equal stratum and dispersion but smaller delay
replaces it. -/
theorem best_offset_server_spec_witness :
    (((⟨0, 0, 0, 0, 0, [], 0⟩ : ntp_server_results).stratum = 0 ∨
        LI (⟨0, 0, 0, 0, 0, [], 0⟩ : ntp_server_results).flags = LI_ALARM) ∧
      bestAux [⟨0, 0, 0, 0, 0, [], 0⟩] 0 none = bestAux [] 1 none) ∧
    (¬((⟨0, 1, 2, 0, 0, [], 0⟩ : ntp_server_results).stratum = 0 ∨
        LI (⟨0, 1, 2, 0, 0, [], 0⟩ : ntp_server_results).flags = LI_ALARM) ∧
      bestAux [(⟨0, 1, 2, 0, 0, [], 0⟩ : ntp_server_results)] 0 none
        = bestAux [] 1 (some (0, ⟨0, 1, 2, 0, 0, [], 0⟩))) :=
  ⟨⟨by decide, best_offset_server_spec.2.2.1 _ [] 0 none (by decide)⟩,
   ⟨by decide, best_offset_server_spec.2.2.2.1 _ [] 0 (by decide)⟩⟩

theorem sendScan_all_waiting (now_time : Int) :
    ∀ (l : List ntp_server_results) (i : Nat),
      (∀ p ∈ l, ¬(p.waiting < now_time ∧ p.num_responses < AVG_NUM)) →
      sendScan now_time i l = (l, none) := by
  intro l
  induction l with
  | nil => intro i _; rfl
  | cons s rest ih =>
    intro i h
    have hs := h s (List.mem_cons_self s rest)
    simp only [sendScan, if_neg hs]
    rw [ih (i + 1) (fun p hp => h p (List.mem_cons_of_mem s hp))]

theorem sendScan_first_eligible (now_time : Int) (p : ntp_server_results)
    (l2 : List ntp_server_results) (hw : p.waiting < now_time)
    (hn : p.num_responses < AVG_NUM) :
    ∀ (l1 : List ntp_server_results) (i : Nat),
      (∀ q ∈ l1, ¬(q.waiting < now_time ∧ q.num_responses < AVG_NUM)) →
      sendScan now_time i (l1 ++ p :: l2)
        = (l1 ++ { p with waiting := now_time } :: l2, some (i + l1.length)) := by
  intro l1
  induction l1 with
  | nil =>
    intro i _
    simp only [List.nil_append, sendScan, if_pos (And.intro hw hn), List.length_nil,
      Nat.add_zero]
  | cons q t ih =>
    intro i h
    have hq := h q (List.mem_cons_self q t)
    simp only [List.cons_append, sendScan, if_neg hq, List.append_eq]
    rw [ih (i + 1) (fun r hr => h r (List.mem_cons_of_mem q hr))]
    simp only [List.length_cons, Prod.mk.injEq, true_and]
    congr 1
    omega

/-- C8: in each iteration of the sampling loop at most one request is sent
(the send scan returns at most one index): when no peer is both below the
sample target and past its waiting second, nothing changes and no send
happens; otherwise exactly the first such peer in scan order gets its waiting
marker set to the current time, every peer before it being ineligible. -/
theorem one_send_per_iteration :
    (∀ (now_time : Int) (l : List ntp_server_results),
      (∀ p ∈ l, ¬(p.waiting < now_time ∧ p.num_responses < AVG_NUM)) →
      sendScan now_time 0 l = (l, none)) ∧
    (∀ (now_time : Int) (l1 l2 : List ntp_server_results) (p : ntp_server_results),
      (∀ q ∈ l1, ¬(q.waiting < now_time ∧ q.num_responses < AVG_NUM)) →
      p.waiting < now_time → p.num_responses < AVG_NUM →
      sendScan now_time 0 (l1 ++ p :: l2)
        = (l1 ++ { p with waiting := now_time } :: l2, some l1.length)) := by
  refine ⟨fun now_time l h => sendScan_all_waiting now_time l 0 h, ?_⟩
  intro now_time l1 l2 p h hw hn
  have := sendScan_first_eligible now_time p l2 hw hn l1 0 h
  simpa using this

/-- C8 witness: one ineligible peer (already at the sample target) followed by
an eligible zeroed peer; the second peer is picked and marked waiting. -/
theorem one_send_per_iteration_witness :
    ((∀ q ∈ [(⟨0, 4, 2, 0, 0, [], 0⟩ : ntp_server_results)],
        ¬(q.waiting < 1 ∧ q.num_responses < AVG_NUM)) ∧
      initServer.waiting < 1 ∧ initServer.num_responses < AVG_NUM) ∧
    sendScan 1 0 [⟨0, 4, 2, 0, 0, [], 0⟩, initServer]
      = ([⟨0, 4, 2, 0, 0, [], 0⟩, { initServer with waiting := 1 }], some 1) := by
  refine ⟨⟨?_, by decide, by decide⟩, ?_⟩
  · intro q hq
    rw [List.mem_singleton] at hq
    subst hq
    decide
  · have := one_send_per_iteration.2 1 [⟨0, 4, 2, 0, 0, [], 0⟩] [] initServer
      (by intro q hq; rw [List.mem_singleton] at hq; subst hq; decide)
      (by decide) (by decide)
    simpa using this

theorem forall2_mem_right {α β : Type} {R : α → β → Prop} {l : List α} {l' : List β}
    (h : List.Forall₂ R l l') : ∀ q ∈ l', ∃ p ∈ l, R p q := by
  induction h with
  | nil => intro q hq; exact absurd hq (List.not_mem_nil q)
  | cons hr _ ih =>
    intro q hq
    rcases List.mem_cons.mp hq with h1 | h1
    · exact ⟨_, List.mem_cons_self _ _, h1 ▸ hr⟩
    · rcases ih q h1 with ⟨p, hp, hpq⟩
      exact ⟨p, List.mem_cons_of_mem _ hp, hpq⟩

theorem forall2_mem_left {α β : Type} {R : α → β → Prop} {l : List α} {l' : List β}
    (h : List.Forall₂ R l l') : ∀ p ∈ l, ∃ q ∈ l', R p q := by
  induction h with
  | nil => intro p hp; exact absurd hp (List.not_mem_nil p)
  | cons hr _ ih =>
    intro p hp
    rcases List.mem_cons.mp hp with h1 | h1
    · exact ⟨_, List.mem_cons_self _ _, h1 ▸ hr⟩
    · rcases ih p h1 with ⟨q, hq, hpq⟩
      exact ⟨q, List.mem_cons_of_mem _ hq, hpq⟩

theorem sendScan_forall2 (now_time : Int) : ∀ (l : List ntp_server_results) (i : Nat),
    List.Forall₂ (fun p q => q = p ∨ q = { p with waiting := now_time })
      l (sendScan now_time i l).1 := by
  intro l
  induction l with
  | nil => intro i; exact List.Forall₂.nil
  | cons s rest ih =>
    intro i
    by_cases h : s.waiting < now_time ∧ s.num_responses < AVG_NUM
    · rw [show (sendScan now_time i (s :: rest)).1 = { s with waiting := now_time } :: rest from
        by simp [sendScan, h]]
      exact List.Forall₂.cons (Or.inr rfl) (List.forall₂_same.mpr fun x _ => Or.inl rfl)
    · rw [show (sendScan now_time i (s :: rest)).1 = s :: (sendScan now_time (i + 1) rest).1 from
        by simp [sendScan, h]]
      exact List.Forall₂.cons (Or.inl rfl) (ih (i + 1))

theorem readScan_forall2 (time_offset : Int) (e : IterEnv) :
    ∀ (l : List ntp_server_results) (k i : Nat),
    List.Forall₂ (fun p q => q = p ∨ (p.num_responses < AVG_NUM ∧
        ∃ m t, q = recordSample time_offset p m t))
      l (readScan time_offset e k i l).1 := by
  intro l
  induction l with
  | nil => intro k i; exact List.Forall₂.nil
  | cons s rest ih =>
    intro k i
    by_cases hk : k = 0
    · rw [show (readScan time_offset e k i (s :: rest)).1 = s :: rest from
        by simp [readScan, hk]]
      exact List.forall₂_same.mpr fun x _ => Or.inl rfl
    · by_cases hr : e.readable i ∧ s.num_responses < AVG_NUM
      · rw [show (readScan time_offset e k i (s :: rest)).1
            = recordSample time_offset s (e.msg i) (e.recv i)
                :: (readScan time_offset e (k - 1) (i + 1) rest).1 from
          by simp [readScan, hk, hr]]
        exact List.Forall₂.cons (Or.inr ⟨hr.2, e.msg i, e.recv i, rfl⟩) (ih (k - 1) (i + 1))
      · rw [show (readScan time_offset e k i (s :: rest)).1
            = s :: (readScan time_offset e k (i + 1) rest).1 from
          by simp [readScan, hk, hr]]
        exact List.Forall₂.cons (Or.inl rfl) (ih k (i + 1))

theorem readScan_countP (time_offset : Int) (e : IterEnv) :
    ∀ (l : List ntp_server_results) (k i : Nat),
    ((readScan time_offset e k i l).1).countP (fun p => decide (p.num_responses = AVG_NUM))
      = l.countP (fun p => decide (p.num_responses = AVG_NUM))
        + (readScan time_offset e k i l).2.1 := by
  intro l
  induction l with
  | nil => intro k i; rfl
  | cons s rest ih =>
    intro k i
    by_cases hk : k = 0
    · simp [readScan, hk]
    · by_cases hr : e.readable i ∧ s.num_responses < AVG_NUM
      · rw [show readScan time_offset e k i (s :: rest)
            = (recordSample time_offset s (e.msg i) (e.recv i)
                :: (readScan time_offset e (k - 1) (i + 1) rest).1,
               (if (recordSample time_offset s (e.msg i) (e.recv i)).num_responses = AVG_NUM
                then 1 else 0) + (readScan time_offset e (k - 1) (i + 1) rest).2.1, true) from
          by simp [readScan, hk, hr]]
        simp only [List.countP_cons]
        have hs : decide (s.num_responses = AVG_NUM) = false := by
          simp only [decide_eq_false_iff_not]
          omega
        rw [ih (k - 1) (i + 1), hs]
        by_cases hq : (recordSample time_offset s (e.msg i) (e.recv i)).num_responses = AVG_NUM <;>
          simp [hq] <;> omega
      · rw [show readScan time_offset e k i (s :: rest)
            = (s :: (readScan time_offset e k (i + 1) rest).1,
               (readScan time_offset e k (i + 1) rest).2.1,
               (readScan time_offset e k (i + 1) rest).2.2) from
          by simp [readScan, hk, hr]]
        simp only [List.countP_cons, ih k (i + 1)]
        omega

theorem readScan_no_read (time_offset : Int) (e : IterEnv) :
    ∀ (l : List ntp_server_results) (k i : Nat),
      (readScan time_offset e k i l).2.2 = false →
      (readScan time_offset e k i l).1 = l ∧ (readScan time_offset e k i l).2.1 = 0 := by
  intro l
  induction l with
  | nil => intro k i _; exact ⟨rfl, rfl⟩
  | cons s rest ih =>
    intro k i hb
    by_cases hk : k = 0
    · simp [readScan, hk]
    · by_cases hr : e.readable i ∧ s.num_responses < AVG_NUM
      · exact absurd hb (by simp [readScan, hk, hr])
      · have hb' : (readScan time_offset e k (i + 1) rest).2.2 = false := by
          revert hb; simp [readScan, hk, hr]
        rcases ih k (i + 1) hb' with ⟨h1, h2⟩
        constructor <;> simp [readScan, hk, hr, h1, h2]

theorem readScan_some_read (time_offset : Int) (e : IterEnv) :
    ∀ (l : List ntp_server_results) (k i : Nat),
      (readScan time_offset e k i l).2.2 = true →
      ∃ q ∈ (readScan time_offset e k i l).1, 0 < q.num_responses := by
  intro l
  induction l with
  | nil => intro k i hb; exact absurd hb (by simp [readScan])
  | cons s rest ih =>
    intro k i hb
    by_cases hk : k = 0
    · exact absurd hb (by simp [readScan, hk])
    · by_cases hr : e.readable i ∧ s.num_responses < AVG_NUM
      · refine ⟨recordSample time_offset s (e.msg i) (e.recv i), ?_, ?_⟩
        · rw [show (readScan time_offset e k i (s :: rest)).1
              = recordSample time_offset s (e.msg i) (e.recv i)
                  :: (readScan time_offset e (k - 1) (i + 1) rest).1 from
            by simp [readScan, hk, hr]]
          exact List.mem_cons_self _ _
        · simp [recordSample]
      · have hb' : (readScan time_offset e k (i + 1) rest).2.2 = true := by
          revert hb; simp [readScan, hk, hr]
        rcases ih k (i + 1) hb' with ⟨q, hq, hqn⟩
        refine ⟨q, ?_, hqn⟩
        rw [show (readScan time_offset e k i (s :: rest)).1
            = s :: (readScan time_offset e k (i + 1) rest).1 from
          by simp [readScan, hk, hr]]
        exact List.mem_cons_of_mem s hq

theorem countP_eq_of_forall2 {l l' : List ntp_server_results}
    (h : List.Forall₂ (fun p q => q.num_responses = p.num_responses) l l') :
    l'.countP (fun p => decide (p.num_responses = AVG_NUM))
      = l.countP (fun p => decide (p.num_responses = AVG_NUM)) := by
  induction h with
  | nil => rfl
  | cons hr _ ih => simp [List.countP_cons, ih, hr]

theorem sendScan_stats {now_time : Int} {p q : ntp_server_results}
    (h : q = p ∨ q = { p with waiting := now_time }) :
    q.num_responses = p.num_responses ∧ q.offset = p.offset ∧ q.stratum = p.stratum := by
  rcases h with h | h <;> subst h <;> exact ⟨rfl, rfl, rfl⟩

theorem loopBody_inv (nh : Nat) (time_offset : Int) (e : IterEnv) (s : LoopState)
    (hinv : LoopInv nh s) : LoopInv nh (loopBody time_offset e s) := by
  obtain ⟨⟨hlen, hcomp⟩, hcounts, honeread⟩ := hinv
  unfold oneReadOk at honeread
  have hsend := sendScan_forall2 e.tnow s.servers 0
  have hread := readScan_forall2 time_offset e (sendScan e.tnow 0 s.servers).1 e.nready 0
  have hsend_num : List.Forall₂ (fun p q => q.num_responses = p.num_responses)
      s.servers (sendScan e.tnow 0 s.servers).1 :=
    List.Forall₂.imp (fun p q hpq => (sendScan_stats hpq).1) hsend
  have hbody_servers : (loopBody time_offset e s).servers
      = (readScan time_offset e e.nready 0 (sendScan e.tnow 0 s.servers).1).1 := rfl
  have hbody_completed : (loopBody time_offset e s).completed
      = s.completed + (readScan time_offset e e.nready 0 (sendScan e.tnow 0 s.servers).1).2.1 :=
    rfl
  have hbody_oneRead : (loopBody time_offset e s).oneRead
      = (s.oneRead || (readScan time_offset e e.nready 0 (sendScan e.tnow 0 s.servers).1).2.2) :=
    rfl
  refine ⟨⟨?_, ?_⟩, ?_, ?_⟩
  · rw [hbody_servers, ← hread.length_eq, ← hsend.length_eq]
    exact hlen
  · rw [hbody_servers, hbody_completed, readScan_countP, countP_eq_of_forall2 hsend_num, hcomp]
  · intro q hq
    rw [hbody_servers] at hq
    obtain ⟨p1, hp1, hrel1⟩ := forall2_mem_right hread q hq
    obtain ⟨p0, hp0, hrel0⟩ := forall2_mem_right hsend p1 hp1
    obtain ⟨h0a, h0b, h0c⟩ := hcounts p0 hp0
    obtain ⟨hs1, hs2, hs3⟩ := sendScan_stats hrel0
    rcases hrel1 with h | ⟨hlt, m, t, hq'⟩
    · subst h
      exact ⟨hs1 ▸ h0a, by rw [hs2, hs1]; exact h0b, fun hz => hs1 ▸ h0c (hs3 ▸ hz)⟩
    · subst hq'
      refine ⟨?_, ?_, fun _ => ?_⟩
      · simp only [recordSample]
        omega
      · simp only [recordSample, List.length_append, List.length_singleton, hs2, h0b, hs1]
      · simp only [recordSample]
        omega
  · show (loopBody time_offset e s).oneRead = true
        ↔ ∃ p ∈ (loopBody time_offset e s).servers, 0 < p.num_responses
    rw [hbody_servers, hbody_oneRead]
    cases hb : (readScan time_offset e e.nready 0 (sendScan e.tnow 0 s.servers).1).2.2
    · have hnr := readScan_no_read time_offset e (sendScan e.tnow 0 s.servers).1 e.nready 0 hb
      rw [hnr.1, Bool.or_false]
      rw [honeread]
      constructor
      · rintro ⟨p, hp, hpn⟩
        obtain ⟨q, hq, hrel⟩ := forall2_mem_left hsend p hp
        exact ⟨q, hq, (sendScan_stats hrel).1 ▸ hpn⟩
      · rintro ⟨q, hq, hqn⟩
        obtain ⟨p, hp, hrel⟩ := forall2_mem_right hsend q hq
        exact ⟨p, hp, (sendScan_stats hrel).1 ▸ hqn⟩
    · refine iff_of_true (by rw [Bool.or_true]) ?_
      exact readScan_some_read time_offset e (sendScan e.tnow 0 s.servers).1 e.nready 0 hb

theorem runLoop_guard_false (nh st : Nat) (time_offset : Int) (trace : List IterEnv)
    (s : LoopState) (h : loopGuard nh st s = false) :
    runLoop nh st time_offset trace s = .finished s := by
  cases trace <;> simp [runLoop, h]

theorem runLoop_finished (nh st : Nat) (time_offset : Int) :
    ∀ (trace : List IterEnv) (s s' : LoopState),
      runLoop nh st time_offset trace s = .finished s' →
      LoopInv nh s → LoopInv nh s' ∧ loopGuard nh st s' = false := by
  intro trace
  induction trace with
  | nil =>
    intro s s' h hinv
    cases hg : loopGuard nh st s
    · simp only [runLoop, hg, Bool.false_eq_true, if_false, LoopOutcome.finished.injEq] at h
      subst h
      exact ⟨hinv, hg⟩
    · simp [runLoop, hg] at h
  | cons e rest ih =>
    intro s s' h hinv
    cases hg : loopGuard nh st s
    · simp only [runLoop, hg, Bool.false_eq_true, if_false, LoopOutcome.finished.injEq] at h
      subst h
      exact ⟨hinv, hg⟩
    · cases hpf : e.pollFail
      · simp only [runLoop, hg, hpf, Bool.false_eq_true, if_true, if_false] at h
        exact ih _ s' h (loopBody_inv nh time_offset e s hinv)
      · simp [runLoop, hg, hpf] at h

theorem initState_inv (nh : Nat) (start_ts : Int) : LoopInv nh (initState nh start_ts) := by
  refine ⟨⟨List.length_replicate nh initServer, ?_⟩, ?_, ?_⟩
  · rw [show (initState nh start_ts).servers = List.replicate nh initServer from rfl,
      List.countP_replicate]
    simp [initState, initServer, AVG_NUM]
  · intro p hp
    rw [show (initState nh start_ts).servers = List.replicate nh initServer from rfl,
      List.mem_replicate] at hp
    rw [hp.2]
    exact ⟨by decide, rfl, fun h => absurd rfl h⟩
  · constructor
    · intro h
      exact absurd h (by simp [initState])
    · rintro ⟨p, hp, hpn⟩
      rw [show (initState nh start_ts).servers = List.replicate nh initServer from rfl,
        List.mem_replicate] at hp
      rw [hp.2] at hpn
      exact absurd hpn (by decide)

theorem loopGuard_eq_true_iff (nh st : Nat) (s : LoopState) :
    loopGuard nh st s = true
      ↔ (s.completed < nh ∧ s.now - s.start ≤ ((st / 2 : Nat) : Int)) := by
  rw [loopGuard, Bool.and_eq_true, decide_eq_true_eq, decide_eq_true_eq]

theorem guard_false_iff (nh st : Nat) (s : LoopState) (hc : completedOk nh s) :
    loopGuard nh st s = false
      ↔ ((∀ p ∈ s.servers, p.num_responses = AVG_NUM)
          ∨ ((st / 2 : Nat) : Int) < s.now - s.start) := by
  obtain ⟨hlen, hcomp⟩ := hc
  have hnotg : loopGuard nh st s = false ↔ ¬(loopGuard nh st s = true) := by
    cases loopGuard nh st s <;> simp
  rw [hnotg, loopGuard_eq_true_iff]
  constructor
  · intro h
    rcases Nat.lt_or_ge s.completed nh with hlt | hge
    · refine Or.inr ?_
      rcases not_and_or.mp h with h1 | h2
      · exact absurd hlt h1
      · exact lt_of_not_le h2
    · refine Or.inl ?_
      have hle := List.countP_le_length (fun p => decide (p.num_responses = AVG_NUM))
        (l := s.servers)
      have hcnt : s.servers.countP (fun p => decide (p.num_responses = AVG_NUM))
          = s.servers.length := by omega
      have h2 := List.countP_eq_length.mp hcnt
      intro p hp
      simpa using h2 p hp
  · rintro (hall | hb) ⟨hlt, hle⟩
    · have hcnt : s.servers.countP (fun p => decide (p.num_responses = AVG_NUM))
          = s.servers.length :=
        List.countP_eq_length.mpr (fun p hp => by simp [hall p hp])
      omega
    · omega

theorem runLoop_terminates_aux (nh st : Nat) (time_offset start_ts : Int) :
    ∀ (trace : List IterEnv) (s : LoopState), s.start = start_ts →
      (∀ e ∈ trace, e.pollFail = false) →
      (∃ e ∈ trace, ((st / 2 : Nat) : Int) < e.tnow - start_ts) →
      ∃ s', runLoop nh st time_offset trace s = .finished s' := by
  intro trace
  induction trace with
  | nil =>
    rintro s _ _ ⟨e, he, _⟩
    exact absurd he (List.not_mem_nil e)
  | cons e rest ih =>
    intro s hstart hpf hbig
    cases hg : loopGuard nh st s
    · exact ⟨s, runLoop_guard_false nh st time_offset (e :: rest) s hg⟩
    · have hpfe : e.pollFail = false := hpf e (List.mem_cons_self e rest)
      rw [show runLoop nh st time_offset (e :: rest) s
          = runLoop nh st time_offset rest (loopBody time_offset e s) from
        by simp [runLoop, hg, hpfe]]
      rcases hbig with ⟨e', he', hbudget⟩
      rcases List.mem_cons.mp he' with rfl | hmem
      · have hg2 : loopGuard nh st (loopBody time_offset e' s) = false := by
          cases h' : loopGuard nh st (loopBody time_offset e' s)
          · rfl
          · exfalso
            have h'' := (loopGuard_eq_true_iff nh st _).mp h'
            have hnow : (loopBody time_offset e' s).now = e'.tnow := rfl
            have hst : (loopBody time_offset e' s).start = s.start := rfl
            rw [hnow, hst, hstart] at h''
            obtain ⟨_, hle⟩ := h''
            omega
        exact ⟨loopBody time_offset e' s, runLoop_guard_false nh st time_offset rest _ hg2⟩
      · exact ih (loopBody time_offset e s)
          (by rw [show (loopBody time_offset e s).start = s.start from rfl, hstart])
          (fun x hx => hpf x (List.mem_cons_of_mem e hx)) ⟨e', hmem, hbudget⟩

/-- C3: the sampling loop terminates once the clock passes the budget of
socket_timeout / 2 seconds from session start, and it exits exactly when
either all peers reached the AVG_NUM sample target or the elapsed time
exceeds that budget: while the guard holds (and poll does not fail) the loop
keeps iterating, and as soon as it fails the loop returns. -/
theorem sampling_loop_exit :
    (∀ (num_hosts socket_timeout : Nat) (time_offset start_ts : Int) (trace : List IterEnv),
      (∀ e ∈ trace, e.pollFail = false) →
      (∃ e ∈ trace, ((socket_timeout / 2 : Nat) : Int) < e.tnow - start_ts) →
      ∃ s', runLoop num_hosts socket_timeout time_offset trace
              (initState num_hosts start_ts) = .finished s') ∧
    (∀ (num_hosts socket_timeout : Nat) (time_offset start_ts : Int) trace s',
      runLoop num_hosts socket_timeout time_offset trace (initState num_hosts start_ts)
          = .finished s' →
      ((∀ p ∈ s'.servers, p.num_responses = AVG_NUM)
        ∨ ((socket_timeout / 2 : Nat) : Int) < s'.now - s'.start)) ∧
    (∀ (num_hosts socket_timeout : Nat) (time_offset : Int) (e : IterEnv) rest s,
      loopGuard num_hosts socket_timeout s = true → e.pollFail = false →
      runLoop num_hosts socket_timeout time_offset (e :: rest) s
        = runLoop num_hosts socket_timeout time_offset rest (loopBody time_offset e s)) ∧
    (∀ (num_hosts socket_timeout : Nat) (time_offset : Int) trace s,
      loopGuard num_hosts socket_timeout s = false →
      runLoop num_hosts socket_timeout time_offset trace s = .finished s) := by
  refine ⟨?_, ?_, ?_, ?_⟩
  · intro nh st toff start trace hpf hbig
    exact runLoop_terminates_aux nh st toff start trace (initState nh start) rfl hpf hbig
  · intro nh st toff start trace s' h
    obtain ⟨hinv, hg⟩ := runLoop_finished nh st toff trace _ s' h (initState_inv nh start)
    exact (guard_false_iff nh st s' hinv.1).mp hg
  · intro nh st toff e rest s hg hpf
    simp [runLoop, hg, hpf]
  · intro nh st toff trace s hg
    exact runLoop_guard_false nh st toff trace s hg

/-- C3 witness: a one-host session with a 4-second timeout and a trace whose
iteration reads the clock at 10 terminates. -/
theorem sampling_loop_exit_witness :
    ((∀ e ∈ [env0], e.pollFail = false) ∧
      (∃ e ∈ [env0], ((4 / 2 : Nat) : Int) < e.tnow - 0)) ∧
    (∃ s', runLoop 1 4 0 [env0] (initState 1 0) = .finished s') := by
  have h1 : ∀ e ∈ [env0], e.pollFail = false := by
    intro e he
    rw [List.mem_singleton] at he
    subst he
    rfl
  have h2 : ∃ e ∈ [env0], ((4 / 2 : Nat) : Int) < e.tnow - 0 :=
    ⟨env0, List.mem_singleton.mpr rfl, by decide⟩
  exact ⟨⟨h1, h2⟩, sampling_loop_exit.1 1 4 0 0 [env0] h1 h2⟩

/-- C7 counterexample: a session that ends with zero datagrams received dies
with state CRITICAL, not the claimed user-visible classification unknown. -/
theorem no_response_critical_counterexample :
    runLoop 1 4 0 [env0] (initState 1 0) = .finished noReadFinal ∧
    noReadFinal.servers = [⟨10, 0, 0, 0, 0, [], 0⟩] ∧
    finishSession .ok noReadFinal = .died .critical ∧
    SessionOutcome.died .critical ≠ SessionOutcome.died .unknown := by
  refine ⟨by decide, rfl, rfl, by decide⟩

/-- C7 amended: when the sampling loop ends with zero datagrams received from
every peer, the session dies with state CRITICAL (and a die state is always
CRITICAL); when at least one sample exists the session does not die. -/
theorem no_response_session (num_hosts socket_timeout : Nat) (time_offset start_ts : Int)
    (trace : List IterEnv) (s' : LoopState) (status0 : MpState)
    (h : runLoop num_hosts socket_timeout time_offset trace (initState num_hosts start_ts)
        = .finished s') :
    (finishSession status0 s' = .died .critical ↔ ∀ p ∈ s'.servers, p.num_responses = 0) ∧
    (∀ st1, finishSession status0 s' = .died st1 → st1 = .critical) := by
  have hinv := (runLoop_finished _ _ _ trace _ s' h (initState_inv _ _)).1
  have hor := hinv.2.2
  unfold oneReadOk at hor
  constructor
  · constructor
    · intro hfin p hp
      cases ho : s'.oneRead
      · have hno : ¬∃ p ∈ s'.servers, 0 < p.num_responses := by
          intro hex
          have := hor.mpr hex
          rw [ho] at this
          exact Bool.noConfusion this
        push_neg at hno
        have := hno p hp
        omega
      · exfalso
        by_cases hbest : best_offset_server s'.servers < 0 <;>
          simp [finishSession, ho, hbest] at hfin
    · intro hall
      have ho : s'.oneRead = false := by
        cases ho : s'.oneRead
        · rfl
        · obtain ⟨p, hp, hpn⟩ := hor.mp ho
          have := hall p hp
          omega
      simp [finishSession, ho]
  · intro st1 hfin
    cases ho : s'.oneRead
    · rw [finishSession, if_pos ho] at hfin
      injection hfin with h1
      exact h1.symm
    · exfalso
      by_cases hbest : best_offset_server s'.servers < 0 <;>
        simp [finishSession, ho, hbest] at hfin

/-- C7 witness: the amended theorem instantiated on the concrete
zero-datagram session. -/
theorem no_response_session_witness :
    (runLoop 1 4 0 [env0] (initState 1 0) = .finished noReadFinal) ∧
    (finishSession .ok noReadFinal = .died .critical
      ↔ ∀ p ∈ noReadFinal.servers, p.num_responses = 0) := by
  have h : runLoop 1 4 0 [env0] (initState 1 0) = .finished noReadFinal := by decide
  exact ⟨h, (no_response_session 1 4 0 0 [env0] noReadFinal .ok h).1⟩

/-- C9: every index returned by best_offset_server on the final state of a
session refers to an in-range peer with non-zero stratum, hence with at least
one recorded response, so the final averaging divides by a positive count. -/
theorem selected_peer_has_samples (num_hosts socket_timeout : Nat)
    (time_offset start_ts : Int) (trace : List IterEnv) (s' : LoopState)
    (h : runLoop num_hosts socket_timeout time_offset trace (initState num_hosts start_ts)
        = .finished s')
    (i : Int) (hbest : best_offset_server s'.servers = i) (hge : 0 ≤ i) :
    i.toNat < s'.servers.length ∧
    (s'.servers.getD i.toNat initServer).stratum ≠ 0 ∧
    0 < (s'.servers.getD i.toNat initServer).num_responses := by
  have hinv := (runLoop_finished _ _ _ trace _ s' h (initState_inv _ _)).1
  have hcounts := hinv.2.1
  rw [best_offset_server] at hbest
  rcases hb : bestAux s'.servers 0 none with _ | ⟨j, srec⟩
  · rw [hb] at hbest
    simp only at hbest
    omega
  · rw [hb] at hbest
    simp only at hbest
    rw [bestAux_eq_foldl] at hb
    rcases foldl_selectStep_origin (List.enumFrom 0 s'.servers) none (j, srec) hb with
      h0 | ⟨hmem, hrej⟩
    · exact Option.noConfusion h0
    · have hmem' : (j, srec) ∈ s'.servers.enum := hmem
      have hget : s'.servers[j]? = some srec := List.mk_mem_enum_iff_getElem?.mp hmem'
      obtain ⟨hlt, hgetel⟩ := List.getElem?_eq_some.mp hget
      have hmm : srec ∈ s'.servers := hgetel ▸ List.getElem_mem hlt
      have hstr : srec.stratum ≠ 0 := fun hz => hrej (Or.inl hz)
      have hcnt := (hcounts srec hmm).2.2 hstr
      have hi : i.toNat = j := by omega
      have hgd : s'.servers.getD i.toNat initServer = srec := by
        rw [hi, List.getD_eq_getElem?_getD, hget]
        rfl
      refine ⟨by rw [hi]; exact hlt, by rw [hgd]; exact hstr, by rw [hgd]; exact hcnt⟩

/-- C9 witness: a session in which the single peer answered once with
stratum 2 selects index 0, which has a positive response count. -/
theorem selected_peer_has_samples_witness :
    (runLoop 1 4 0 [env1] (initState 1 0) = .finished oneReadFinal ∧
      best_offset_server oneReadFinal.servers = 0 ∧ (0 : Int) ≤ 0) ∧
    ((0 : Int).toNat < oneReadFinal.servers.length ∧
      (oneReadFinal.servers.getD (0 : Int).toNat initServer).stratum ≠ 0 ∧
      0 < (oneReadFinal.servers.getD (0 : Int).toNat initServer).num_responses) := by
  have h1 : runLoop 1 4 0 [env1] (initState 1 0) = .finished oneReadFinal := rfl
  have h2 : best_offset_server oneReadFinal.servers = 0 := by decide
  exact ⟨⟨h1, h2, le_refl 0⟩,
    selected_peer_has_samples 1 4 0 0 [env1] oneReadFinal h1 0 h2 (le_refl 0)⟩

/-- C10: throughout the sampling loop every peer's response count stays at
most AVG_NUM and the written prefix of the offset array has exactly
num_responses entries, each sample being appended at the pre-increment count:
this holds initially, is preserved by every iteration, and holds at loop
exit. -/
theorem response_count_bounded :
    (∀ (time_offset : Int) (s : ntp_server_results) m t,
      (recordSample time_offset s m t).num_responses = s.num_responses + 1 ∧
      (recordSample time_offset s m t).offset.length = s.offset.length + 1) ∧
    (∀ nh (start_ts : Int), ∀ p ∈ (initState nh start_ts).servers,
      p.num_responses ≤ AVG_NUM ∧ p.offset.length = p.num_responses) ∧
    (∀ (time_offset : Int) (e : IterEnv) (s : LoopState),
      (∀ p ∈ s.servers, p.num_responses ≤ AVG_NUM ∧ p.offset.length = p.num_responses) →
      ∀ p ∈ (loopBody time_offset e s).servers,
        p.num_responses ≤ AVG_NUM ∧ p.offset.length = p.num_responses) ∧
    (∀ nh st (time_offset start_ts : Int) trace s',
      runLoop nh st time_offset trace (initState nh start_ts) = .finished s' →
      ∀ p ∈ s'.servers, p.num_responses ≤ AVG_NUM ∧ p.offset.length = p.num_responses) := by
  refine ⟨?_, ?_, ?_, ?_⟩
  · intro time_offset s m t
    simp [recordSample]
  · intro nh start_ts p hp
    rw [show (initState nh start_ts).servers = List.replicate nh initServer from rfl,
      List.mem_replicate] at hp
    rw [hp.2]
    exact ⟨by decide, rfl⟩
  · intro time_offset e s hs q hq
    have hsend := sendScan_forall2 e.tnow s.servers 0
    have hread := readScan_forall2 time_offset e (sendScan e.tnow 0 s.servers).1 e.nready 0
    rw [show (loopBody time_offset e s).servers
        = (readScan time_offset e e.nready 0 (sendScan e.tnow 0 s.servers).1).1 from rfl] at hq
    obtain ⟨p1, hp1, hrel1⟩ := forall2_mem_right hread q hq
    obtain ⟨p0, hp0, hrel0⟩ := forall2_mem_right hsend p1 hp1
    obtain ⟨h0a, h0b⟩ := hs p0 hp0
    obtain ⟨hs1, hs2, _⟩ := sendScan_stats hrel0
    rcases hrel1 with hq' | ⟨hlt, m, t, hq'⟩
    · subst hq'
      exact ⟨hs1 ▸ h0a, by rw [hs2, hs1]; exact h0b⟩
    · subst hq'
      constructor
      · simp only [recordSample]
        omega
      · simp only [recordSample, List.length_append, List.length_singleton, hs2, h0b, hs1]
  · intro nh st time_offset start_ts trace s' h p hp
    have hinv := (runLoop_finished _ _ _ trace _ s' h (initState_inv _ _)).1
    obtain ⟨ha, hb, _⟩ := hinv.2.1 p hp
    exact ⟨ha, hb⟩

/-- C10 witness: the exit-state bound instantiated on the concrete one-sample
session and its single peer record. -/
theorem response_count_bounded_witness :
    (runLoop 1 4 0 [env1] (initState 1 0) = .finished oneReadFinal) ∧
    ((recordSample 0 ⟨5, 0, 0, 0, 0, [], 0⟩ msgGood 0).num_responses ≤ AVG_NUM ∧
      (recordSample 0 ⟨5, 0, 0, 0, 0, [], 0⟩ msgGood 0).offset.length
        = (recordSample 0 ⟨5, 0, 0, 0, 0, [], 0⟩ msgGood 0).num_responses) := by
  have h : runLoop 1 4 0 [env1] (initState 1 0) = .finished oneReadFinal := rfl
  exact ⟨h, response_count_bounded.2.2.2 1 4 0 0 [env1] oneReadFinal h
    (recordSample 0 ⟨5, 0, 0, 0, 0, [], 0⟩ msgGood 0) (List.mem_singleton.mpr rfl)⟩

end CheckNtpTime
